import Mathlib

/-!
Verification of the deploy-website service (a small HTTP service that stores
HTML documents under a storage root and serves them back).

The development shallowly embeds the core logic of the repository:

* `sanitizeFilename` and `validateFilePath` from src/index-secure.ts,
* the deploy / list / delete handlers of the secure variant (index-secure.ts),
* the deploy / delete handlers of the plain variant (index.ts), including its
  remote-URL ingestion branch,
* the delete handler of simple-api.js.

Strings are modelled as Lean `String` (a list of characters, matching the
JavaScript string operations used by the code, which are all ASCII-level here).
The filesystem is modelled as an association list from absolute paths to file
contents.  Node's POSIX `path` functions (`basename`, `resolve`, `join`,
`parse`) are embedded directly; the service targets Linux deployments, so the
POSIX rules (directory separator `/`, backslash not a separator) apply.
-/

namespace DeployWebsite

/-! ### Character-list primitives -/

/-- Boolean test of a prefix relation on character lists
(JavaScript `String.prototype.startsWith`). -/
def isPre : List Char → List Char → Bool
  | [], _ => true
  | _ :: _, [] => false
  | a :: as, b :: bs => if a = b then isPre as bs else false

/-- `hasChar l c` is true when `c` occurs in `l`
(JavaScript `String.prototype.includes` with a one-character needle). -/
def hasChar : List Char → Char → Bool
  | [], _ => false
  | a :: rest, c => if a = c then true else hasChar rest c

/-- True when two consecutive dots occur in the list
(JavaScript `filename.includes('..')`). -/
def hasDotDot : List Char → Bool
  | [] => false
  | [_] => false
  | a :: b :: rest => (a = '.' && b = '.') || hasDotDot (b :: rest)

/-- Strip a known prefix, returning the remainder when it matches. -/
def stripPre : List Char → List Char → Option (List Char)
  | [], l => some l
  | _ :: _, [] => none
  | a :: as, b :: bs => if a = b then stripPre as bs else none

/-- Remove the first occurrence of `pat` from the list
(JavaScript `String.prototype.replace` with a string pattern and empty
replacement). -/
def replaceFirst (pat : List Char) : List Char → List Char
  | [] => []
  | c :: rest =>
    if isPre pat (c :: rest) then (c :: rest).drop pat.length
    else c :: replaceFirst pat rest

/-- `strStartsWith s pre` : JavaScript `s.startsWith(pre)`. -/
def strStartsWith (s pre : String) : Bool := isPre pre.data s.data

/-- `strEndsWith s suf` : JavaScript `s.endsWith(suf)`. -/
def strEndsWith (s suf : String) : Bool := isPre suf.data.reverse s.data.reverse

/-! ### Node.js `path` (POSIX) -/

/-- Last path segment of a character list: trailing separators are ignored and
everything after the last remaining `/` is kept.  This is Node's
`path.posix.basename` (without an extension argument). -/
def basenameChars (l : List Char) : List Char :=
  ((l.reverse.dropWhile fun c => decide (c = '/')).takeWhile fun c => decide (c ≠ '/')).reverse

/-- Node `path.basename` on strings. -/
def basenameStr (s : String) : String := ⟨basenameChars s.data⟩

/-- Split a character list on `/` (used to model path normalization).
`splitOnSlash` never returns `[]`; empty segments are preserved. -/
def splitOnSlash : List Char → List (List Char)
  | [] => [[]]
  | c :: rest =>
    if c = '/' then [] :: splitOnSlash rest
    else
      match splitOnSlash rest with
      | [] => [[c]]
      | s :: ss => (c :: s) :: ss

/-- One step of path normalization: empty and `.` segments are dropped, `..`
pops the last segment (staying at the root when there is none), and any other
segment is pushed. -/
def normStep (acc : List (List Char)) (seg : List Char) : List (List Char) :=
  if seg = [] then acc
  else if seg = ['.'] then acc
  else if seg = ['.', '.'] then acc.dropLast
  else acc ++ [seg]

/-- Join normalized segments with `/` separators (no leading slash). -/
def joinSegsAux : List (List Char) → List Char
  | [] => []
  | [s] => s
  | s :: rest => s ++ '/' :: joinSegsAux rest

/-- Node `path.resolve` restricted to absolute POSIX paths: collapse duplicate
separators, drop `.` segments, resolve `..` segments, drop any trailing
separator.  The result always starts with `/`.  (`path.resolve` does not
follow symlinks, and neither does this model.) -/
def resolveAbs (s : String) : String :=
  ⟨'/' :: joinSegsAux ((splitOnSlash s.data).foldl normStep [])⟩

/-- Node `path.join root name` for an absolute `root`: concatenate with a
separator and normalize.  The handlers only call it with a root produced by
`path.resolve`-compatible configuration and a single-segment name. -/
def pathJoin (root name : String) : String := resolveAbs (root ++ "/" ++ name)

/-- Node `path.parse(base).name` / `.ext` for a basename: the extension starts
at the last dot, unless that dot is the first character (so `.html` has name
`.html` and empty extension).  Returns the pair `(name, ext)`. -/
def lastDotSplit : List Char → Option (List Char × List Char)
  | [] => none
  | c :: rest =>
    match lastDotSplit rest with
    | some (n, e) => some (c :: n, e)
    | none => if c = '.' then some ([], c :: rest) else none

/-- `parseNameExt f = (path.parse(f).name, path.parse(f).ext)` for a
single-segment file name `f`. -/
def parseNameExt (s : String) : String × String :=
  match lastDotSplit s.data with
  | some (n, e) => if n = [] then (s, "") else (⟨n⟩, ⟨e⟩)
  | none => (s, "")

/-! ### The security helpers of index-secure.ts -/

/-- Characters kept by the sanitizer's character class `[a-zA-Z0-9_\-\.]`. -/
def isSafeChar (c : Char) : Bool :=
  c.isAlpha || c.isDigit || c = '_' || c = '-' || c = '.'

/-- Replace every character outside the safe class by `_`
(the `.replace(/[^a-zA-Z0-9_\-\.]/g, '_')` part of the sanitizer). -/
def replaceUnsafe (l : List Char) : List Char :=
  l.map fun c => if isSafeChar c then c else '_'

/-- `sanitizeFilename` from index-secure.ts:
`path.basename(filename).replace(/[^a-zA-Z0-9_\-\.]/g, '_')`. -/
def sanitizeFilename (filename : String) : String :=
  ⟨replaceUnsafe (basenameChars filename.data)⟩

/-- `validateFilePath` from index-secure.ts:
`resolved.startsWith(base + path.sep) || resolved === base` where
`resolved = path.resolve(filePath)` and `base = path.resolve(baseDir)`. -/
def validateFilePath (filePath baseDir : String) : Bool :=
  let resolved := resolveAbs filePath
  let base := resolveAbs baseDir
  strStartsWith resolved (base ++ "/") || resolved = base

/-! ### Random names and timestamps -/

/-- Two lowercase hex digits of one byte. -/
def hexByte (b : Nat) : List Char :=
  [Nat.digitChar (b / 16 % 16), Nat.digitChar (b % 16)]

/-- `crypto.randomBytes(n).toString('hex')`: the byte values are supplied as an
oracle argument, the encoding is lowercase hex, first byte first. -/
def hexEncode (bs : List Nat) : String :=
  ⟨bs.foldr (fun b acc => hexByte b ++ acc) []⟩

/-- Lowercase hexadecimal digits (the alphabet of `toString('hex')`). -/
def isHexChar (c : Char) : Bool :=
  c.isDigit || ('a' ≤ c && c ≤ 'f')

/-- Decimal digits of a natural number (fuel-based; `natToString n` below
always supplies enough fuel).  Models JavaScript template interpolation of
`Date.now()`. -/
def natDigitsAux : Nat → Nat → List Char → List Char
  | 0, _, acc => acc
  | fuel + 1, n, acc =>
    if n < 10 then Nat.digitChar n :: acc
    else natDigitsAux fuel (n / 10) (Nat.digitChar (n % 10) :: acc)

/-- Decimal rendering of a natural number. -/
def natToString (n : Nat) : String := ⟨natDigitsAux (n + 1) n []⟩

/-! ### Filesystem model

The filesystem is an association list from absolute paths to file contents.
All handler effects (`fs.writeFile`, `fs.unlink`, `fs.access`, `fs.readdir`,
`fs.stat`) are expressed against it.  `stats.size` of a file written with
`fs.writeFile(path, s, "utf-8")` is the UTF-8 byte length of `s`. -/

/-- Filesystem state: absolute path ↦ content. -/
abbrev FS := List (String × String)

/-- `fs.access(p)` succeeds iff an entry for `p` exists. -/
def fsHas (fs : FS) (p : String) : Bool :=
  fs.any fun e => e.1 = p

/-- `fs.writeFile(p, c)`: full replacement of any prior content at `p`. -/
def fsWrite (fs : FS) (p c : String) : FS :=
  if fsHas fs p then fs.map (fun e => if e.1 = p then (p, c) else e)
  else fs ++ [(p, c)]

/-- `fs.unlink(p)`. -/
def fsRemove (fs : FS) (p : String) : FS :=
  fs.filter fun e => decide (e.1 ≠ p)

/-- Content stored at a path, if any. -/
def fsGet (fs : FS) (p : String) : Option String :=
  (fs.find? fun e => decide (e.1 = p)).map fun e => e.2

/-! ### Handler results -/

/-- Outcome of a deploy request. -/
inductive DeployRes where
  /-- 200, body carries the final file name. -/
  | ok (filename : String)
  /-- 400: HTML content missing, empty, or over the 50 MB limit. -/
  | invalidHtml
  /-- 403: `validateFilePath` failed. -/
  | pathViolation
  /-- 400: the upstream fetch of a remote URL returned a non-success status
  (the status is reported in the error message). -/
  | fetchErr (status : Nat)
  deriving DecidableEq

/-- HTTP status of a deploy outcome. -/
def deployStatus : DeployRes → Nat
  | .ok _ => 200
  | .invalidHtml => 400
  | .pathViolation => 403
  | .fetchErr _ => 400

/-- Outcome of a delete request. -/
inductive DeleteRes where
  /-- 200: the file was removed. -/
  | ok
  /-- 400: empty name or a name failing the sanitizer round-trip / containing
  a separator or parent-reference token. -/
  | invalidName
  /-- 403: `validateFilePath` failed. -/
  | forbidden
  /-- 404: no such file. -/
  | notFound
  /-- 500: the catch-all of simple-api.js. -/
  | serverError
  deriving DecidableEq

/-- HTTP status of a delete outcome. -/
def deleteStatus : DeleteRes → Nat
  | .ok => 200
  | .invalidName => 400
  | .forbidden => 403
  | .notFound => 404
  | .serverError => 500

/-- The 50 MB HTML size limit of index-secure.ts. -/
def MAX_HTML : Nat := 50 * 1024 * 1024

/-! ### index-secure.ts handlers -/

/-- `POST /api/deploy` of index-secure.ts.  `root` is `WEBSITE_DIR`,
`randBytes` the oracle for `crypto.randomBytes(8)`, `ts` the oracle for
`Date.now()`.  Length checks use the JavaScript string length (characters). -/
def deploySecure (root html : String) (filename : Option String)
    (randBytes : List Nat) (ts : Nat) (fs : FS) : DeployRes × FS :=
  if html = "" then (.invalidHtml, fs)
  else if MAX_HTML < html.length then (.invalidHtml, fs)
  else
    let finalFilename :=
      match filename with
      | some f =>
        if f = "" then hexEncode randBytes ++ ".html"
        else
          let safe := sanitizeFilename f
          if strEndsWith safe ".html" then safe else safe ++ ".html"
      | none => hexEncode randBytes ++ ".html"
    let filePath := pathJoin root finalFilename
    let renamed :=
      if fsHas fs filePath then
        let parsed := parseNameExt finalFilename
        let f2 := parsed.1 ++ "-" ++ natToString ts ++ parsed.2
        (f2, pathJoin root f2)
      else (finalFilename, filePath)
    if validateFilePath renamed.2 root then (.ok renamed.1, fsWrite fs renamed.2 html)
    else (.pathViolation, fs)

/-- `GET /api/list` of index-secure.ts: names directly under the root that end
in `.html`, each with its size in bytes.  The order is the directory
enumeration order (here: the association-list order). -/
def listFiles (root : String) (fs : FS) : List (String × Nat) :=
  fs.filterMap fun e =>
    match stripPre (root ++ "/").data e.1.data with
    | some rest =>
      if rest ≠ [] && !hasChar rest '/' && strEndsWith ⟨rest⟩ ".html"
      then some (⟨rest⟩, e.2.utf8ByteSize) else none
    | none => none

/-- `DELETE /api/delete/:filename` of index-secure.ts.  The name is validated
(sanitizer round-trip and absence of `..`, `/`, `\`) before any path is
resolved or the filesystem is consulted. -/
def deleteSecure (root name : String) (fs : FS) : DeleteRes × FS :=
  if name = "" then (.invalidName, fs)
  else
    let safe := sanitizeFilename name
    if safe ≠ name || hasDotDot name.data || hasChar name.data '/' || hasChar name.data '\\'
    then (.invalidName, fs)
    else
      let filePath := pathJoin root safe
      if !validateFilePath filePath root then (.forbidden, fs)
      else if fsHas fs filePath then (.ok, fsRemove fs filePath)
      else (.notFound, fs)

/-! ### index.ts handlers (the plain variant) -/

/-- The HTML-body branch of `POST /api/deploy` in index.ts: no sanitization,
no existence check, no path guard. -/
def deployInsecure (root html : String) (filename : Option String)
    (randBytes : List Nat) (fs : FS) : DeployRes × FS :=
  if html = "" then (.invalidHtml, fs)
  else
    let finalFilename :=
      match filename with
      | some f => if f = "" then hexEncode randBytes ++ ".html" else f ++ ".html"
      | none => hexEncode randBytes ++ ".html"
    (.ok finalFilename, fsWrite fs (pathJoin root finalFilename) html)

/-- `DELETE /api/delete/:filename` of index.ts: join and unlink with no
validation; any error yields 404. -/
def deleteInsecure (root name : String) (fs : FS) : DeleteRes × FS :=
  if name = "" then (.invalidName, fs)
  else
    let filePath := pathJoin root name
    if fsHas fs filePath then (.ok, fsRemove fs filePath) else (.notFound, fs)

/-- Result of the upstream `fetch` performed by the remote-URL branch. -/
structure FetchResp where
  /-- HTTP status of the upstream response. -/
  status : Nat
  /-- `await response.text()`. -/
  body : String
  deriving DecidableEq

/-- `response.ok`: status in the 200-299 range. -/
def respOk (r : FetchResp) : Bool := decide (200 ≤ r.status ∧ r.status < 300)

/-- `new URL(u).pathname` for a plain `http(s)://host/path` URL: the part from
the first `/` after the authority, up to any `?` or `#`; `/` when absent.
Modelled here because the `URL` class is a platform builtin. -/
def dropThroughSlashSlash : List Char → List Char
  | [] => []
  | '/' :: '/' :: rest => rest
  | _ :: rest => dropThroughSlashSlash rest

/-- The pathname component of a URL string. -/
def urlPathname (u : String) : String :=
  let afterHost := (dropThroughSlashSlash u.data).dropWhile fun c => decide (c ≠ '/')
  let p := afterHost.takeWhile fun c => decide (c ≠ '?') && decide (c ≠ '#')
  if p = [] then "/" else ⟨p⟩

/-- `s.replace('.html', '')` on strings. -/
def replaceFirstHtml (s : String) : String := ⟨replaceFirst ".html".data s.data⟩

/-- The remote-URL branch of `POST /api/deploy` in index.ts (entered when a
`url` is supplied and no `html`): fetch, reject non-success status with a 400
carrying the upstream status, otherwise derive a candidate name from the URL's
final path segment when it ends in `.html`, and fall through to the plain
deploy. -/
def deployFromUrl (root urlStr : String) (filename : Option String)
    (resp : FetchResp) (randBytes : List Nat) (fs : FS) : DeployRes × FS :=
  if !respOk resp then (.fetchErr resp.status, fs)
  else
    let filename2 :=
      match filename with
      | some f => some f
      | none =>
        let urlFilename := basenameStr (urlPathname urlStr)
        if urlFilename ≠ "" && strEndsWith urlFilename ".html"
        then some (replaceFirstHtml urlFilename) else none
    deployInsecure root resp.body filename2 randBytes fs

/-! ### simple-api.js delete handler -/

/-- `DELETE /delete/:filename` of simple-api.js: join and unlink directly;
any error (including a missing file) yields a 500 response. -/
def deleteSimple (root name : String) (fs : FS) : DeleteRes × FS :=
  let filePath := pathJoin root name
  if fsHas fs filePath then (.ok, fsRemove fs filePath) else (.serverError, fs)

/-! ### Well-formedness predicates used by the theorems -/

/-- The storage root as configured in the deployments: an absolute, already
normalized directory path other than the filesystem root. -/
def goodRoot (root : String) : Prop := resolveAbs root = root ∧ root ≠ "/"

/-- File names produced by the deploy handlers: sanitizer-safe characters
only, no `..` sequence, and the `.html` extension. -/
def goodName (n : String) : Prop :=
  n.data.all isSafeChar = true ∧ hasDotDot n.data = false ∧ strEndsWith n ".html" = true

/-! ### Basic lemmas about strings and the character-list primitives -/

theorem strData_inj {a b : String} (h : a.data = b.data) : a = b := by
  cases a; cases b; exact congrArg String.mk h

theorem data_append (a b : String) : (a ++ b).data = a.data ++ b.data := by
  cases a; cases b; rfl

theorem mk_data (s : String) : (⟨s.data⟩ : String) = s := by
  cases s; rfl

theorem strLength_eq (s : String) : s.length = s.data.length := rfl

theorem isPre_append_self (a b : List Char) : isPre a (a ++ b) = true := by
  induction a with
  | nil => rfl
  | cons c rest ih => simp [isPre, ih]

theorem isPre_length_le {a b : List Char} (h : isPre a b = true) :
    a.length ≤ b.length := by
  induction a generalizing b with
  | nil => simp
  | cons c rest ih =>
    cases b with
    | nil => simp [isPre] at h
    | cons d bs =>
      by_cases hc : c = d
      · simp only [isPre, if_pos hc] at h
        simpa using ih h
      · simp [isPre, hc] at h

theorem stripPre_append_self (a b : List Char) : stripPre a (a ++ b) = some b := by
  induction a with
  | nil => rfl
  | cons c rest ih => simp [stripPre, ih]

theorem stripPre_eq_some {a l b : List Char} (h : stripPre a l = some b) :
    l = a ++ b := by
  induction a generalizing l with
  | nil =>
    simp only [stripPre, Option.some_inj] at h
    simp [h]
  | cons c rest ih =>
    cases l with
    | nil => simp [stripPre] at h
    | cons d ls =>
      by_cases hc : c = d
      · subst hc
        simp only [stripPre, if_pos rfl] at h
        simpa using ih h
      · simp [stripPre, hc] at h

theorem hasChar_eq_false {l : List Char} {c : Char} :
    hasChar l c = false ↔ c ∉ l := by
  induction l with
  | nil => simp [hasChar]
  | cons a rest ih =>
    by_cases ha : a = c
    · subst ha; simp [hasChar]
    · rw [hasChar, if_neg ha, ih]
      simp only [List.mem_cons, not_or]
      exact ⟨fun h => ⟨fun hc => ha hc.symm, h⟩, fun h => h.2⟩

theorem hasChar_append (a b : List Char) (c : Char) :
    hasChar (a ++ b) c = (hasChar a c || hasChar b c) := by
  induction a with
  | nil => simp [hasChar]
  | cons d rest ih =>
    by_cases hd : d = c <;> simp [hasChar, hd, ih]

theorem dropWhile_eq_self {p : Char → Bool} {l : List Char}
    (h : ∀ x ∈ l, p x = false) : l.dropWhile p = l := by
  cases l with
  | nil => rfl
  | cons a rest => simp [List.dropWhile, h a (by simp)]

theorem takeWhile_eq_self {p : Char → Bool} {l : List Char}
    (h : ∀ x ∈ l, p x = true) : l.takeWhile p = l := by
  induction l with
  | nil => rfl
  | cons a rest ih =>
    simp only [List.takeWhile, h a (by simp)]
    exact congrArg (a :: ·) (ih fun x hx => h x (by simp [hx]))

theorem basenameChars_of_no_slash {l : List Char} (h : hasChar l '/' = false) :
    basenameChars l = l := by
  have hmem : '/' ∉ l := hasChar_eq_false.mp h
  have h1 : (l.reverse.dropWhile fun c => decide (c = '/')) = l.reverse := by
    refine dropWhile_eq_self fun x hx => ?_
    have : x ∈ l := List.mem_reverse.mp hx
    simp only [decide_eq_false_iff_not]
    intro he; exact hmem (he ▸ this)
  have h2 : (l.reverse.takeWhile fun c => decide (c ≠ '/')) = l.reverse := by
    refine takeWhile_eq_self fun x hx => ?_
    have : x ∈ l := List.mem_reverse.mp hx
    simp only [decide_eq_true_eq]
    intro he; exact hmem (he ▸ this)
  unfold basenameChars
  rw [h1, h2, List.reverse_reverse]

theorem replaceUnsafe_all_safe (l : List Char) :
    (replaceUnsafe l).all isSafeChar = true := by
  rw [List.all_eq_true]
  intro x hx
  rcases List.mem_map.mp hx with ⟨c, _, rfl⟩
  by_cases h : isSafeChar c = true
  · rw [if_pos h]; exact h
  · rw [if_neg h]; decide

theorem replaceUnsafe_eq_self {l : List Char} (h : l.all isSafeChar = true) :
    replaceUnsafe l = l := by
  induction l with
  | nil => rfl
  | cons c rest ih =>
    simp only [List.all_cons, Bool.and_eq_true] at h
    show (if isSafeChar c = true then c else '_') :: replaceUnsafe rest = c :: rest
    rw [if_pos h.1, ih h.2]

theorem all_safe_no_slash {l : List Char} (h : l.all isSafeChar = true) :
    hasChar l '/' = false := by
  rw [hasChar_eq_false]
  intro hm
  have := (List.all_eq_true.mp h) _ hm
  simp [isSafeChar] at this

theorem all_safe_no_backslash {l : List Char} (h : l.all isSafeChar = true) :
    hasChar l '\\' = false := by
  rw [hasChar_eq_false]
  intro hm
  have := (List.all_eq_true.mp h) _ hm
  simp [isSafeChar] at this

theorem sanitize_all_safe (s : String) :
    (sanitizeFilename s).data.all isSafeChar = true :=
  replaceUnsafe_all_safe _

theorem sanitize_eq_self_of_safe {s : String} (h : s.data.all isSafeChar = true) :
    sanitizeFilename s = s := by
  unfold sanitizeFilename
  rw [basenameChars_of_no_slash (all_safe_no_slash h), replaceUnsafe_eq_self h]

theorem sanitize_idem (s : String) :
    sanitizeFilename (sanitizeFilename s) = sanitizeFilename s :=
  sanitize_eq_self_of_safe (sanitize_all_safe s)

theorem sanitize_fixed_all_safe {s : String} (h : sanitizeFilename s = s) :
    s.data.all isSafeChar = true := h ▸ sanitize_all_safe s

theorem hasDotDot_append {a b : List Char} (h : hasChar a '.' = false) :
    hasDotDot (a ++ b) = hasDotDot b := by
  induction a with
  | nil => rfl
  | cons c rest ih =>
    have hc : c ≠ '.' := by
      intro hc; rw [hc] at h; simp [hasChar] at h
    have hrest : hasChar rest '.' = false := by
      by_cases h0 : c = '.'
      · exact absurd h0 hc
      · rw [hasChar, if_neg h0] at h; exact h
    rw [List.cons_append]
    cases he : rest ++ b with
    | nil =>
      rcases List.append_eq_nil.mp he with ⟨h1, h2⟩
      subst h1; subst h2
      rfl
    | cons d t =>
      have h2 : hasDotDot (c :: d :: t) = hasDotDot (d :: t) := by
        simp [hasDotDot, hc]
      rw [h2, ← he, ih hrest]

/-! ### Lemmas about path normalization -/

theorem splitOnSlash_ne_nil (l : List Char) : splitOnSlash l ≠ [] := by
  cases l with
  | nil => simp [splitOnSlash]
  | cons c rest =>
    by_cases hc : c = '/'
    · simp [splitOnSlash, hc]
    · simp only [splitOnSlash, if_neg hc]
      cases splitOnSlash rest <;> simp

theorem splitOnSlash_append (a b : List Char) :
    splitOnSlash (a ++ '/' :: b) = splitOnSlash a ++ splitOnSlash b := by
  induction a with
  | nil => simp [splitOnSlash]
  | cons c rest ih =>
    by_cases hc : c = '/'
    · simp [splitOnSlash, hc, ih]
    · rw [List.cons_append]
      simp only [splitOnSlash, if_neg hc, ih]
      cases hs : splitOnSlash rest with
      | nil => exact absurd hs (splitOnSlash_ne_nil rest)
      | cons s ss => simp

theorem splitOnSlash_no_slash {l : List Char} (h : hasChar l '/' = false) :
    splitOnSlash l = [l] := by
  induction l with
  | nil => rfl
  | cons c rest ih =>
    have hc : c ≠ '/' := by
      intro hc; rw [hc] at h; simp [hasChar] at h
    have hrest : hasChar rest '/' = false := by
      rw [hasChar, if_neg hc] at h; exact h
    simp [splitOnSlash, hc, ih hrest]

theorem normStep_plain (acc : List (List Char)) {seg : List Char}
    (h1 : seg ≠ []) (h2 : seg ≠ ['.']) (h3 : seg ≠ ['.', '.']) :
    normStep acc seg = acc ++ [seg] := by
  simp [normStep, h1, h2, h3]

theorem joinSegsAux_append_single {xs : List (List Char)} (y : List Char)
    (h : xs ≠ []) : joinSegsAux (xs ++ [y]) = joinSegsAux xs ++ '/' :: y := by
  induction xs with
  | nil => exact absurd rfl h
  | cons s rest ih =>
    cases rest with
    | nil => rfl
    | cons s2 rest2 =>
      rw [List.cons_append, List.cons_append]
      show s ++ '/' :: joinSegsAux (s2 :: (rest2 ++ [y]))
          = joinSegsAux (s :: s2 :: rest2) ++ '/' :: y
      rw [← List.cons_append, ih (by simp)]
      show s ++ '/' :: (joinSegsAux (s2 :: rest2) ++ '/' :: y)
          = (s ++ '/' :: joinSegsAux (s2 :: rest2)) ++ '/' :: y
      simp

/-- Data of the string literal for the separator. -/
theorem sep_data : ("/" : String).data = ['/'] := rfl

/-- Normalizing a normalized root extended by one plain segment is the
identity: the central lemma behind the path guard accepting the files the
handlers create. -/
theorem resolve_append_seg {r n : String}
    (hr : resolveAbs r = r) (hroot : r ≠ "/")
    (hn0 : n.data ≠ []) (hns : hasChar n.data '/' = false)
    (hn1 : n.data ≠ ['.']) (hn2 : n.data ≠ ['.', '.']) :
    resolveAbs (r ++ "/" ++ n) = r ++ "/" ++ n := by
  have hdata : r.data = '/' :: joinSegsAux ((splitOnSlash r.data).foldl normStep []) := by
    conv_lhs => rw [← hr]
    rfl
  have hnr : (splitOnSlash r.data).foldl normStep [] ≠ [] := by
    intro h0
    apply hroot
    apply strData_inj
    rw [hdata, h0, sep_data]
    rfl
  have hsplit : (r ++ "/" ++ n).data = r.data ++ '/' :: n.data := by
    rw [data_append, data_append, sep_data, List.append_assoc]
    rfl
  apply strData_inj
  show ('/' :: joinSegsAux (((splitOnSlash (r ++ "/" ++ n).data)).foldl normStep []))
      = (r ++ "/" ++ n).data
  rw [hsplit, splitOnSlash_append, splitOnSlash_no_slash hns, List.foldl_append,
    List.foldl_cons, List.foldl_nil, normStep_plain _ hn0 hn1 hn2,
    joinSegsAux_append_single _ hnr]
  rw [← List.cons_append, ← hdata]

/-- The path guard accepts `root/name` for any plain single-segment name. -/
theorem validate_join {root n : String} (hg : goodRoot root)
    (hn0 : n.data ≠ []) (hns : hasChar n.data '/' = false)
    (hn1 : n.data ≠ ['.']) (hn2 : n.data ≠ ['.', '.']) :
    validateFilePath (pathJoin root n) root = true := by
  have hres := resolve_append_seg hg.1 hg.2 hn0 hns hn1 hn2
  unfold validateFilePath pathJoin
  rw [hres, hres, hg.1]
  have hpre : strStartsWith (root ++ "/" ++ n) (root ++ "/") = true := by
    unfold strStartsWith
    rw [data_append (root ++ "/") n]
    exact isPre_append_self _ _
  show (strStartsWith (root ++ "/" ++ n) (root ++ "/")
      || decide (root ++ "/" ++ n = root)) = true
  rw [hpre, Bool.true_or]

/-- A good (deploy-produced) name is a plain single segment. -/
theorem goodName_plain {n : String} (hg : goodName n) :
    n.data ≠ [] ∧ hasChar n.data '/' = false ∧ n.data ≠ ['.'] ∧ n.data ≠ ['.', '.'] := by
  obtain ⟨hsafe, _, hext⟩ := hg
  have hlen : 5 ≤ n.data.length := by
    have := isPre_length_le hext
    simpa using this
  refine ⟨?_, all_safe_no_slash hsafe, ?_, ?_⟩
  · intro h0; rw [h0] at hlen; simp at hlen
  · intro h0; rw [h0] at hlen; simp at hlen
  · intro h0; rw [h0] at hlen; simp at hlen

/-! ### Lemmas about generated names (hex tokens and timestamps) -/

theorem digitChar_safe {m : Nat} (h : m < 16) :
    isSafeChar (Nat.digitChar m) = true := by
  interval_cases m <;> decide

theorem digitChar_ne_dot {m : Nat} (h : m < 16) : Nat.digitChar m ≠ '.' := by
  interval_cases m <;> decide

theorem digitChar_hex {m : Nat} (h : m < 16) :
    isHexChar (Nat.digitChar m) = true := by
  interval_cases m <;> decide

theorem digitChar_isDigit {m : Nat} (h : m < 10) :
    (Nat.digitChar m).isDigit = true := by
  interval_cases m <;> decide

theorem hexEncode_data (bs : List Nat) :
    (hexEncode bs).data = bs.foldr (fun b acc => hexByte b ++ acc) [] := rfl

theorem hexEncode_all {bs : List Nat} {p : Char → Bool}
    (h : ∀ m, m < 16 → p (Nat.digitChar m) = true) :
    (hexEncode bs).data.all p = true := by
  rw [hexEncode_data]
  induction bs with
  | nil => rfl
  | cons b rest ih =>
    rw [List.foldr_cons, List.all_append]
    have h1 := h (b / 16 % 16) (Nat.mod_lt _ (by norm_num))
    have h2 := h (b % 16) (Nat.mod_lt _ (by norm_num))
    have hb : (hexByte b).all p = true := by simp [hexByte, h1, h2]
    rw [hb, ih]
    rfl

theorem hexEncode_all_safe (bs : List Nat) :
    (hexEncode bs).data.all isSafeChar = true :=
  hexEncode_all fun _ h => digitChar_safe h

theorem hexEncode_all_hex (bs : List Nat) :
    (hexEncode bs).data.all isHexChar = true :=
  hexEncode_all fun _ h => digitChar_hex h

theorem hexEncode_no_dot (bs : List Nat) :
    hasChar (hexEncode bs).data '.' = false := by
  rw [hasChar_eq_false]
  intro hmem
  have hall := List.all_eq_true.mp
    (@hexEncode_all bs (fun c => decide (c ≠ '.'))
      fun _ h => by simpa using digitChar_ne_dot h) _ hmem
  simp at hall

theorem hexEncode_length (bs : List Nat) :
    (hexEncode bs).length = 2 * bs.length := by
  rw [strLength_eq, hexEncode_data]
  induction bs with
  | nil => rfl
  | cons b rest ih =>
    rw [List.foldr_cons, List.length_append, ih]
    simp [hexByte]
    omega

theorem hexEncode_ne_empty {bs : List Nat} (h : bs ≠ []) : hexEncode bs ≠ "" := by
  intro h0
  have := congrArg String.length h0
  rw [hexEncode_length] at this
  have : 2 * bs.length = 0 := this
  have hlen : bs.length = 0 := by omega
  exact h (List.length_eq_zero.mp hlen)

theorem natDigitsAux_all_digit {fuel n : Nat} {acc : List Char}
    (hf : n < fuel) (hacc : acc.all Char.isDigit = true) :
    (natDigitsAux fuel n acc).all Char.isDigit = true := by
  induction fuel generalizing n acc with
  | zero => omega
  | succ fuel ih =>
    by_cases h10 : n < 10
    · simpa [natDigitsAux, h10, digitChar_isDigit h10] using hacc
    · have hrec : n / 10 < fuel := by
        have := Nat.div_lt_self (by omega : 0 < n) (by norm_num : 1 < 10)
        omega
      have hacc2 : (Nat.digitChar (n % 10) :: acc).all Char.isDigit = true := by
        simp [digitChar_isDigit (Nat.mod_lt _ (by norm_num) : n % 10 < 10), hacc]
      simpa [natDigitsAux, h10] using ih hrec hacc2

theorem natDigitsAux_ne_nil {fuel n : Nat} {acc : List Char} (hf : n < fuel) :
    natDigitsAux fuel n acc ≠ [] := by
  induction fuel generalizing n acc with
  | zero => omega
  | succ fuel ih =>
    by_cases h10 : n < 10
    · simp [natDigitsAux, h10]
    · have hrec : n / 10 < fuel := by
        have := Nat.div_lt_self (by omega : 0 < n) (by norm_num : 1 < 10)
        omega
      simpa [natDigitsAux, h10] using ih hrec

theorem natToString_all_digit (n : Nat) :
    (natToString n).data.all Char.isDigit = true :=
  natDigitsAux_all_digit (Nat.lt_succ_self n) rfl

theorem natToString_ne_nil (n : Nat) : (natToString n).data ≠ [] :=
  natDigitsAux_ne_nil (Nat.lt_succ_self n)

theorem digit_safe {c : Char} (h : c.isDigit = true) : isSafeChar c = true := by
  simp [isSafeChar, h]

theorem digit_ne_dot {c : Char} (h : c.isDigit = true) : c ≠ '.' := by
  intro he; rw [he] at h; exact absurd h (by decide)

theorem all_digit_safe {l : List Char} (h : l.all Char.isDigit = true) :
    l.all isSafeChar = true := by
  rw [List.all_eq_true] at h ⊢
  exact fun x hx => digit_safe (h x hx)

theorem all_digit_no_dot {l : List Char} (h : l.all Char.isDigit = true) :
    hasChar l '.' = false := by
  rw [hasChar_eq_false]
  intro hmem
  exact digit_ne_dot (List.all_eq_true.mp h _ hmem) rfl

/-! ### Well-formedness of the names produced by the deploy handlers -/

theorem data_ne_nil_of_ne {s : String} (h : s ≠ "") : s.data ≠ [] := by
  intro h0
  exact h (strData_inj (by rw [h0]))

theorem strEndsWith_concat (a : String) :
    strEndsWith (a ++ ".html") ".html" = true := by
  unfold strEndsWith
  rw [data_append, List.reverse_append]
  exact isPre_append_self _ _

theorem goodName_concat {a : String} (hsafe : a.data.all isSafeChar = true)
    (hdot : hasChar a.data '.' = false) : goodName (a ++ ".html") := by
  refine ⟨?_, ?_, strEndsWith_concat a⟩
  · rw [data_append, List.all_append, hsafe]
    decide
  · rw [data_append, hasDotDot_append hdot]
    decide

theorem dash_ts_all_safe {a : String} (ts : Nat)
    (hsafe : a.data.all isSafeChar = true) :
    (a ++ "-" ++ natToString ts).data.all isSafeChar = true := by
  rw [data_append, data_append, List.all_append, List.all_append, hsafe,
    all_digit_safe (natToString_all_digit ts)]
  decide

theorem dash_ts_no_dot {a : String} (ts : Nat)
    (hdot : hasChar a.data '.' = false) :
    hasChar (a ++ "-" ++ natToString ts).data '.' = false := by
  rw [data_append, data_append, hasChar_append, hasChar_append, hdot,
    all_digit_no_dot (natToString_all_digit ts)]
  decide

theorem lastDotSplit_no_dot {l : List Char} (h : hasChar l '.' = false) :
    lastDotSplit l = none := by
  induction l with
  | nil => rfl
  | cons c rest ih =>
    have hc : c ≠ '.' := by
      intro hc; rw [hc] at h; simp [hasChar] at h
    have hrest : hasChar rest '.' = false := by
      rw [hasChar, if_neg hc] at h; exact h
    simp [lastDotSplit, ih hrest, hc]

theorem lastDotSplit_append {p t : List Char} (h : hasChar t '.' = false) :
    lastDotSplit (p ++ '.' :: t) = some (p, '.' :: t) := by
  induction p with
  | nil => simp [lastDotSplit, lastDotSplit_no_dot h]
  | cons c rest ih => simp [lastDotSplit, ih]

theorem parseNameExt_concat {x : String} (hx : x ≠ "") :
    parseNameExt (x ++ ".html") = (x, ".html") := by
  unfold parseNameExt
  have hdata : (x ++ ".html").data = x.data ++ '.' :: "html".data := by
    rw [data_append]
  rw [hdata, lastDotSplit_append (by decide)]
  show (if x.data = [] then (x ++ ".html", "") else (⟨x.data⟩, ⟨'.' :: "html".data⟩))
      = (x, ".html")
  rw [if_neg (data_ne_nil_of_ne hx), mk_data]

/-! ### Filesystem lemmas -/

theorem fsHas_iff {fs : FS} {p : String} :
    fsHas fs p = true ↔ ∃ c, (p, c) ∈ fs := by
  unfold fsHas
  rw [List.any_eq_true]
  constructor
  · rintro ⟨e, he, hp⟩
    have h1 : e.1 = p := of_decide_eq_true hp
    exact ⟨e.2, by rw [← h1]; exact he⟩
  · rintro ⟨c, hc⟩
    exact ⟨(p, c), hc, by simp⟩

theorem fsWrite_mem (fs : FS) (p c : String) : (p, c) ∈ fsWrite fs p c := by
  unfold fsWrite
  by_cases h : fsHas fs p = true
  · rw [if_pos h]
    rcases List.any_eq_true.mp h with ⟨e, he, hp⟩
    have h1 : e.1 = p := of_decide_eq_true hp
    refine List.mem_map.mpr ⟨e, he, ?_⟩
    rw [if_pos h1]
  · rw [if_neg h]
    simp

theorem find_map_ne {fs : FS} {p q c : String} (h : p ≠ q) :
    (fs.map fun e => if e.1 = q then (q, c) else e).find? (fun e => decide (e.1 = p))
      = fs.find? fun e => decide (e.1 = p) := by
  induction fs with
  | nil => rfl
  | cons e rest ih =>
    have hqp : ¬ (q = p) := fun hh => h hh.symm
    by_cases hq : e.1 = q
    · rw [List.map_cons, if_pos hq]
      simp [List.find?, hqp, hq, ih]
    · rw [List.map_cons, if_neg hq]
      by_cases hp : e.1 = p
      · simp [List.find?, hp]
      · simp [List.find?, hp, ih]

theorem find_append_single_ne {fs : FS} {p q c : String} (h : p ≠ q) :
    (fs ++ [(q, c)]).find? (fun e => decide (e.1 = p))
      = fs.find? fun e => decide (e.1 = p) := by
  have hqp : ¬ (q = p) := fun hh => h hh.symm
  induction fs with
  | nil => simp [List.find?, hqp]
  | cons e rest ih =>
    by_cases hp : e.1 = p
    · simp [List.find?, hp]
    · simp [List.find?, hp, ih]

theorem fsGet_write_ne {fs : FS} {p q c : String} (h : p ≠ q) :
    fsGet (fsWrite fs q c) p = fsGet fs p := by
  unfold fsWrite fsGet
  by_cases hq : fsHas fs q = true
  · rw [if_pos hq, find_map_ne h]
  · rw [if_neg hq, find_append_single_ne h]

/-! ### Lemmas about the list endpoint -/

theorem listFiles_mem {root n c : String} {fs : FS}
    (hg : goodName n) (hmem : (root ++ "/" ++ n, c) ∈ fs) :
    (n, c.utf8ByteSize) ∈ listFiles root fs := by
  obtain ⟨h0, hs, _, _⟩ := goodName_plain hg
  refine List.mem_filterMap.mpr ⟨(root ++ "/" ++ n, c), hmem, ?_⟩
  have h1 : stripPre (root ++ "/").data (root ++ "/" ++ n).data = some n.data := by
    rw [data_append]
    exact stripPre_append_self _ _
  simp only [h1, mk_data]
  simp [h0, hs, hg.2.2]

theorem listFiles_none_after_remove {root n : String} {fs : FS} :
    ∀ e ∈ listFiles root (fsRemove fs (root ++ "/" ++ n)), e.1 ≠ n := by
  intro e he
  rcases List.mem_filterMap.mp he with ⟨entry, hentry, heq⟩
  have hne : entry.1 ≠ root ++ "/" ++ n := by
    have hfil := List.mem_filter.mp hentry
    exact of_decide_eq_true hfil.2
  intro hEn
  apply hne
  rcases hsp : stripPre (root ++ "/").data entry.1.data with _ | rest
  · simp only [hsp] at heq
    exact Option.noConfusion heq
  · simp only [hsp] at heq
    split at heq
    · have he1 : e.1 = (⟨rest⟩ : String) := by
        rw [← Option.some_inj.mp heq]
      have hrest : rest = n.data := by
        have := congrArg String.data (he1.symm.trans hEn)
        simpa using this
      apply strData_inj
      rw [stripPre_eq_some hsp, hrest, data_append, data_append, data_append]
    · exact absurd heq (by simp)

/-! ### Runs of the secure delete handler -/

theorem deleteSecure_removes {root n : String} {fs : FS}
    (hg : goodRoot root) (hn : goodName n)
    (hhas : fsHas fs (pathJoin root n) = true) :
    deleteSecure root n fs = (.ok, fsRemove fs (pathJoin root n)) := by
  obtain ⟨h0, hs, h1, h2⟩ := goodName_plain hn
  have hne : ¬ n = "" := fun h => h0 (by rw [h])
  have hsan : sanitizeFilename n = n := sanitize_eq_self_of_safe hn.1
  have hbs : hasChar n.data '\\' = false := all_safe_no_backslash hn.1
  have hval := validate_join hg h0 hs h1 h2
  simp [deleteSecure, hne, hsan, hn.2.1, hs, hbs, hval, hhas]

theorem deleteSecure_notFound {root n : String} {fs : FS}
    (hg : goodRoot root) (hn0 : ¬ n = "") (hsan : sanitizeFilename n = n)
    (hdd : hasDotDot n.data = false) (hdot : n ≠ ".")
    (hhas : fsHas fs (pathJoin root n) = false) :
    deleteSecure root n fs = (.notFound, fs) := by
  have hsafe := sanitize_fixed_all_safe hsan
  have hs : hasChar n.data '/' = false := all_safe_no_slash hsafe
  have hbs : hasChar n.data '\\' = false := all_safe_no_backslash hsafe
  have h1 : n.data ≠ ['.'] := fun h => hdot (strData_inj (by rw [h]))
  have h2 : n.data ≠ ['.', '.'] := by
    intro h
    rw [h] at hdd
    exact absurd hdd (by decide)
  have hval := validate_join hg (data_ne_nil_of_ne hn0) hs h1 h2
  simp [deleteSecure, hn0, hsan, hdd, hs, hbs, hval, hhas]

theorem deleteSecure_reject {root n : String} {fs : FS}
    (h : hasChar n.data '/' = true ∨ hasChar n.data '\\' = true
      ∨ hasDotDot n.data = true) :
    deleteSecure root n fs = (.invalidName, fs) := by
  have hne : ¬ n = "" := by
    intro h0
    subst h0
    rcases h with h | h | h <;> exact absurd h (by decide)
  have hcond : (decide (sanitizeFilename n ≠ n) || hasDotDot n.data
      || hasChar n.data '/' || hasChar n.data '\\') = true := by
    rcases h with h | h | h <;> simp [h]
  simp only [deleteSecure, hcond]
  rw [if_neg hne, if_pos trivial]

/-! ### Runs of the secure deploy handler -/

theorem plain_of_concat_html {a : String} (hs : hasChar a.data '/' = false) :
    (a ++ ".html").data ≠ [] ∧ hasChar (a ++ ".html").data '/' = false ∧
    (a ++ ".html").data ≠ ['.'] ∧ (a ++ ".html").data ≠ ['.', '.'] := by
  have hd : (a ++ ".html").data = a.data ++ ".html".data := data_append _ _
  have hext : (".html" : String).data.length = 5 := rfl
  have hlen : 5 ≤ (a ++ ".html").data.length := by
    rw [hd, List.length_append]
    omega
  refine ⟨?_, ?_, ?_, ?_⟩
  · intro h0; rw [h0] at hlen; simp at hlen
  · rw [hd, hasChar_append, hs]
    decide
  · intro h0; rw [h0] at hlen; simp at hlen
  · intro h0; rw [h0] at hlen; simp at hlen

theorem dash_ts_no_slash {a : String} (ts : Nat)
    (hs : hasChar a.data '/' = false) :
    hasChar (a ++ "-" ++ natToString ts).data '/' = false := by
  rw [data_append, data_append, hasChar_append, hasChar_append, hs,
    all_safe_no_slash (all_digit_safe (natToString_all_digit ts))]
  decide

theorem deploySecure_auto_free {root html : String} {bytes : List Nat}
    {ts : Nat} {fs : FS}
    (hg : goodRoot root) (hh : ¬ html = "") (hlen : ¬ MAX_HTML < html.length)
    (hfree : fsHas fs (pathJoin root (hexEncode bytes ++ ".html")) = false) :
    deploySecure root html none bytes ts fs
      = (.ok (hexEncode bytes ++ ".html"),
        fsWrite fs (pathJoin root (hexEncode bytes ++ ".html")) html) := by
  have hgood : goodName (hexEncode bytes ++ ".html") :=
    goodName_concat (hexEncode_all_safe bytes) (hexEncode_no_dot bytes)
  obtain ⟨h0, hs, h1, h2⟩ := goodName_plain hgood
  have hval := validate_join hg h0 hs h1 h2
  simp [deploySecure, hh, hlen, hfree, hval]

theorem deploySecure_auto_taken {root html : String} {bytes : List Nat}
    {ts : Nat} {fs : FS}
    (hg : goodRoot root) (hh : ¬ html = "") (hlen : ¬ MAX_HTML < html.length)
    (hb : bytes ≠ [])
    (htaken : fsHas fs (pathJoin root (hexEncode bytes ++ ".html")) = true) :
    deploySecure root html none bytes ts fs
      = (.ok (hexEncode bytes ++ "-" ++ natToString ts ++ ".html"),
        fsWrite fs (pathJoin root (hexEncode bytes ++ "-" ++ natToString ts ++ ".html")) html) := by
  have hparse := parseNameExt_concat (hexEncode_ne_empty hb)
  have hgood2 : goodName (hexEncode bytes ++ "-" ++ natToString ts ++ ".html") :=
    goodName_concat (dash_ts_all_safe ts (hexEncode_all_safe bytes))
      (dash_ts_no_dot ts (hexEncode_no_dot bytes))
  obtain ⟨h0, hs, h1, h2⟩ := goodName_plain hgood2
  have hval := validate_join hg h0 hs h1 h2
  simp [deploySecure, hh, hlen, htaken, hparse, hval]

theorem deploySecure_named_taken {root x html : String} {bytes : List Nat}
    {ts : Nat} {fs : FS}
    (hg : goodRoot root) (hh : ¬ html = "") (hlen : ¬ MAX_HTML < html.length)
    (hx0 : ¬ x = "") (hxs : sanitizeFilename x = x)
    (hxe : strEndsWith x ".html" = false)
    (htaken : fsHas fs (pathJoin root (x ++ ".html")) = true) :
    deploySecure root html (some x) bytes ts fs
      = (.ok (x ++ "-" ++ natToString ts ++ ".html"),
        fsWrite fs (pathJoin root (x ++ "-" ++ natToString ts ++ ".html")) html) := by
  have hsafe : x.data.all isSafeChar = true := sanitize_fixed_all_safe hxs
  have hparse := parseNameExt_concat hx0
  obtain ⟨p0, ps, p1, p2⟩ :=
    plain_of_concat_html (dash_ts_no_slash ts (all_safe_no_slash hsafe))
  have hval := validate_join hg p0 ps p1 p2
  simp [deploySecure, hh, hlen, hx0, hxs, hxe, htaken, hparse, hval]

theorem deploySecure_empty_sanitized {root name html : String}
    {bytes : List Nat} {ts : Nat} {fs : FS}
    (hg : goodRoot root) (hh : ¬ html = "") (hlen : ¬ MAX_HTML < html.length)
    (hn0 : ¬ name = "") (hsan : sanitizeFilename name = "")
    (hfree : fsHas fs (pathJoin root ".html") = false) :
    deploySecure root html (some name) bytes ts fs
      = (.ok ".html", fsWrite fs (pathJoin root ".html") html) := by
  have hval := validate_join hg (n := ".html")
    (by decide) (by decide) (by decide) (by decide)
  have he : strEndsWith "" ".html" = false := by decide
  have happ : ("" : String) ++ ".html" = ".html" := by decide
  simp [deploySecure, hh, hlen, hn0, hsan, he, happ, hfree, hval]

theorem pathJoin_ne {root a b : String} (hg : goodRoot root)
    (ha0 : a.data ≠ []) (has : hasChar a.data '/' = false)
    (ha1 : a.data ≠ ['.']) (ha2 : a.data ≠ ['.', '.'])
    (hb0 : b.data ≠ []) (hbs : hasChar b.data '/' = false)
    (hb1 : b.data ≠ ['.']) (hb2 : b.data ≠ ['.', '.'])
    (hab : a ≠ b) : pathJoin root a ≠ pathJoin root b := by
  unfold pathJoin
  rw [resolve_append_seg hg.1 hg.2 ha0 has ha1 ha2,
    resolve_append_seg hg.1 hg.2 hb0 hbs hb1 hb2]
  intro h
  apply hab
  have hd := congrArg String.data h
  rw [data_append, data_append] at hd
  exact strData_inj (List.append_cancel_left hd)

theorem dashName_ne {x : String} (ts : Nat) :
    x ++ "-" ++ natToString ts ++ ".html" ≠ x ++ ".html" := by
  intro h
  have hlen := congrArg (fun s => s.data.length) h
  simp only [data_append, List.length_append] at hlen
  have hts : 1 ≤ (natToString ts).data.length := by
    cases hd : (natToString ts).data with
    | nil => exact absurd hd (natToString_ne_nil ts)
    | cons a l => simp
  have hdash : ("-" : String).data.length = 1 := rfl
  omega

/-- One deploy-list-delete-list cycle for a good name: the shared core of the
round-trip property. -/
theorem roundtrip_core {root N : String} (C : String) (fs : FS)
    (hg : goodRoot root) (hgood : goodName N) :
    (N, C.utf8ByteSize) ∈ listFiles root (fsWrite fs (pathJoin root N) C)
    ∧ deleteSecure root N (fsWrite fs (pathJoin root N) C)
        = (.ok, fsRemove (fsWrite fs (pathJoin root N) C) (pathJoin root N))
    ∧ ∀ e ∈ listFiles root
        (fsRemove (fsWrite fs (pathJoin root N) C) (pathJoin root N)), e.1 ≠ N := by
  obtain ⟨h0, hs, h1, h2⟩ := goodName_plain hgood
  have hpj : pathJoin root N = root ++ "/" ++ N :=
    resolve_append_seg hg.1 hg.2 h0 hs h1 h2
  have hmem : (root ++ "/" ++ N, C) ∈ fsWrite fs (pathJoin root N) C := by
    rw [← hpj]
    exact fsWrite_mem fs _ C
  refine ⟨listFiles_mem hgood hmem, ?_, ?_⟩
  · exact deleteSecure_removes hg hgood (fsHas_iff.mpr ⟨C, fsWrite_mem fs _ C⟩)
  · rw [hpj]
    exact listFiles_none_after_remove

/-! ## The claims -/

/-- Claim C1, counterexample: the sanitizer keeps dots, so the input `a..b`
(which contains the sequence `..`) sanitizes to itself and its output still
contains `..`, contradicting the claim that sanitized outputs never contain
that sequence. -/
theorem C1_counterexample :
    sanitizeFilename "a..b" = "a..b"
    ∧ hasDotDot ("a..b" : String).data = true
    ∧ hasDotDot (sanitizeFilename "a..b").data = true := by decide

/-- Claim C1 (amended): for every input string, the sanitizer output contains
no `/` and no `\`, and re-sanitizing the output is a no-op (idempotence).
The `..` part of the original claim is false — dots are in the sanitizer's
allowed character class, so `..` can survive. -/
theorem C1_sanitizer_separator_free_idempotent (s : String) :
    hasChar (sanitizeFilename s).data '/' = false
    ∧ hasChar (sanitizeFilename s).data '\\' = false
    ∧ sanitizeFilename (sanitizeFilename s) = sanitizeFilename s :=
  ⟨all_safe_no_slash (sanitize_all_safe s),
   all_safe_no_backslash (sanitize_all_safe s), sanitize_idem s⟩

/-- Claim C2, counterexample: with the storage root configured as the
filesystem root `/`, the resolved path `/etc` is nested exactly one level
inside the root, yet the guard returns false (because it compares against
the root followed by a separator, i.e. the prefix `//`). -/
theorem C2_counterexample :
    resolveAbs "/etc" = "/etc"
    ∧ resolveAbs "/" = "/"
    ∧ validateFilePath "/etc" "/" = false := by decide

/-- Claim C2 (amended): the path guard returns true iff the resolved candidate
equals the resolved root or its string form begins with the resolved root
followed by the separator; consequently it returns false for every path
satisfying neither condition, and it returns true for every path one plain
segment below the root — provided the root is not the filesystem root `/`
itself (for root `/` the guard accepts only `/`, as the counterexample
shows). -/
theorem C2_path_guard_characterization :
    (∀ p r : String, validateFilePath p r = true
        ↔ (strStartsWith (resolveAbs p) (resolveAbs r ++ "/") = true
          ∨ resolveAbs p = resolveAbs r))
    ∧ (∀ p r : String,
        strStartsWith (resolveAbs p) (resolveAbs r ++ "/") = false
        → resolveAbs p ≠ resolveAbs r → validateFilePath p r = false)
    ∧ (∀ r n : String, goodRoot r
        → n.data ≠ [] → hasChar n.data '/' = false
        → n.data ≠ ['.'] → n.data ≠ ['.', '.']
        → validateFilePath (r ++ "/" ++ n) r = true) := by
  refine ⟨fun p r => ?_, fun p r h1 h2 => ?_, fun r n hg h0 hs h1 h2 => ?_⟩
  · unfold validateFilePath
    simp [Bool.or_eq_true, decide_eq_true_eq]
  · unfold validateFilePath
    simp [h1, h2]
  · have hres := resolve_append_seg hg.1 hg.2 h0 hs h1 h2
    unfold validateFilePath
    rw [hres, hg.1]
    have hpre : strStartsWith (r ++ "/" ++ n) (r ++ "/") = true := by
      unfold strStartsWith
      rw [data_append (r ++ "/") n]
      exact isPre_append_self _ _
    show (strStartsWith (r ++ "/" ++ n) (r ++ "/")
        || decide (r ++ "/" ++ n = r)) = true
    rw [hpre, Bool.true_or]

/-- Claim C2 witness: the guard accepts a file one level inside a normal
root. -/
theorem C2_witness : validateFilePath ("/data" ++ "/" ++ "a.html") "/data" = true :=
  C2_path_guard_characterization.2.2 "/data" "a.html"
    ⟨by decide, by decide⟩ (by decide) (by decide) (by decide) (by decide)

/-- Claim C3: evaluation of both delete handlers on the traversal payload
`../../etc/passwd` with the storage root `/var/www/website` and a file at the
escaped path `/var/etc/passwd`.  The plain variant (index.ts) joins and
unlinks, removing the file outside the root; the secure variant rejects the
name with `InvalidName` (HTTP 400) and leaves the filesystem unchanged, which
is what the claim (and the repository's own security review) requires. -/
theorem C3_delete_traversal_eval :
    deleteInsecure "/var/www/website" "../../etc/passwd"
        [("/var/etc/passwd", "secret")] = (.ok, [])
    ∧ deleteSecure "/var/www/website" "../../etc/passwd"
        [("/var/etc/passwd", "secret")]
      = (.invalidName, [("/var/etc/passwd", "secret")])
    ∧ deleteStatus .invalidName = 400 := by decide

/-- Claim C4, counterexample: in the plain variant (index.ts), deploying with
the explicit name `x` while `x.html` exists returns the unchanged name
`x.html` and silently overwrites the pre-existing content — there is no
timestamp disambiguation. -/
theorem C4_counterexample :
    deployInsecure "/var/www/website" "<h1>new</h1>" (some "x") [0, 0, 0, 0, 0, 0, 0, 0]
        [("/var/www/website/x.html", "old")]
      = (.ok "x.html", [("/var/www/website/x.html", "<h1>new</h1>")]) := by decide

/-- Claim C4 (amended): in the secure variant, deploying with an explicit
name `x` (that survives sanitization and does not already end in `.html`)
while `x.html` exists yields the final name `x-<timestamp>.html`, which is
distinct from `x.html`, and the pre-existing file's content is unchanged.
In the plain variant (index.ts) the same call returns `x.html` and overwrites
the existing file. -/
theorem C4_deploy_collision_disambiguation :
    (∀ (root x html : String) (bytes : List Nat) (ts : Nat) (fs : FS),
      goodRoot root
      → ¬ x = "" → sanitizeFilename x = x → strEndsWith x ".html" = false
      → ¬ html = "" → ¬ MAX_HTML < html.length
      → fsHas fs (pathJoin root (x ++ ".html")) = true
      → deploySecure root html (some x) bytes ts fs
          = (.ok (x ++ "-" ++ natToString ts ++ ".html"),
            fsWrite fs (pathJoin root (x ++ "-" ++ natToString ts ++ ".html")) html)
        ∧ x ++ "-" ++ natToString ts ++ ".html" ≠ x ++ ".html"
        ∧ fsGet (fsWrite fs (pathJoin root (x ++ "-" ++ natToString ts ++ ".html")) html)
            (pathJoin root (x ++ ".html"))
          = fsGet fs (pathJoin root (x ++ ".html")))
    ∧ (∀ (root x html : String) (bytes : List Nat) (fs : FS),
      ¬ x = "" → ¬ html = ""
      → deployInsecure root html (some x) bytes fs
          = (.ok (x ++ ".html"), fsWrite fs (pathJoin root (x ++ ".html")) html)) := by
  constructor
  · intro root x html bytes ts fs hg hx0 hxs hxe hh hlen htaken
    have hsafe : x.data.all isSafeChar = true := sanitize_fixed_all_safe hxs
    have hxslash : hasChar x.data '/' = false := all_safe_no_slash hsafe
    obtain ⟨a0, as0, a1, a2⟩ := plain_of_concat_html hxslash
    obtain ⟨b0, bs0, b1, b2⟩ :=
      plain_of_concat_html (dash_ts_no_slash ts hxslash)
    refine ⟨deploySecure_named_taken hg hh hlen hx0 hxs hxe htaken, dashName_ne ts, ?_⟩
    refine fsGet_write_ne ?_
    exact pathJoin_ne hg a0 as0 a1 a2 b0 bs0 b1 b2 (dashName_ne ts).symm
  · intro root x html bytes fs hx0 hh
    simp [deployInsecure, hx0, hh]

/-- Claim C4 witness: a concrete collision run of the secure deploy
handler. -/
theorem C4_witness :
    (deploySecure "/var/www/website" "<h1>new</h1>" (some "demo") [0, 0, 0, 0, 0, 0, 0, 0] 99
        [("/var/www/website/demo.html", "old")]).1
      = .ok "demo-99.html" := by
  have h := (C4_deploy_collision_disambiguation.1 "/var/www/website" "demo" "<h1>new</h1>"
    [0, 0, 0, 0, 0, 0, 0, 0] 99 [("/var/www/website/demo.html", "old")]
    ⟨by decide, by decide⟩ (by decide) (by decide) (by decide) (by decide)
    (by decide) (by decide)).1
  rw [h]
  decide

/-- Claim C5: round trip in the secure variant: deploying non-empty content
`C` (within the size limit) with no supplied name succeeds with some final
name `N`; the subsequent list contains an entry named `N` whose size is the
UTF-8 byte length of `C`; deleting `N` succeeds and removes it; and a list
taken after the delete has no entry named `N`. -/
theorem C5_roundtrip :
    ∀ (root C : String) (bytes : List Nat) (ts : Nat) (fs : FS),
      goodRoot root → ¬ C = "" → ¬ MAX_HTML < C.length → bytes.length = 8 →
      ∃ N fs1,
        deploySecure root C none bytes ts fs = (.ok N, fs1)
        ∧ (N, C.utf8ByteSize) ∈ listFiles root fs1
        ∧ deleteSecure root N fs1 = (.ok, fsRemove fs1 (pathJoin root N))
        ∧ ∀ e ∈ listFiles root (fsRemove fs1 (pathJoin root N)), e.1 ≠ N := by
  intro root C bytes ts fs hg hC hlen hb
  have hbne : bytes ≠ [] := by
    intro h0; rw [h0] at hb; simp at hb
  by_cases hfree : fsHas fs (pathJoin root (hexEncode bytes ++ ".html")) = true
  · have hgood : goodName (hexEncode bytes ++ "-" ++ natToString ts ++ ".html") :=
      goodName_concat (dash_ts_all_safe ts (hexEncode_all_safe bytes))
        (dash_ts_no_dot ts (hexEncode_no_dot bytes))
    obtain ⟨m1, m2, m3⟩ := roundtrip_core C fs hg hgood
    exact ⟨_, _, deploySecure_auto_taken hg hC hlen hbne hfree, m1, m2, m3⟩
  · have hfree2 : fsHas fs (pathJoin root (hexEncode bytes ++ ".html")) = false := by
      cases h0 : fsHas fs (pathJoin root (hexEncode bytes ++ ".html")) with
      | false => rfl
      | true => exact absurd h0 hfree
    have hgood : goodName (hexEncode bytes ++ ".html") :=
      goodName_concat (hexEncode_all_safe bytes) (hexEncode_no_dot bytes)
    obtain ⟨m1, m2, m3⟩ := roundtrip_core C fs hg hgood
    exact ⟨_, _, deploySecure_auto_free hg hC hlen hfree2, m1, m2, m3⟩

/-- Claim C5 witness: the hypotheses are satisfiable on a concrete store. -/
theorem C5_witness :
    (deploySecure "/var/www/website" "<h1>hi</h1>" none [0, 0, 0, 0, 0, 0, 0, 0] 0 []).1
      ≠ .invalidHtml := by
  obtain ⟨N, fs1, h1, _, _, _⟩ := C5_roundtrip "/var/www/website" "<h1>hi</h1>"
    [0, 0, 0, 0, 0, 0, 0, 0] 0 [] ⟨by decide, by decide⟩ (by decide) (by decide) rfl
  rw [h1]
  simp

/-- Claim C6, counterexample: the name `/` is truthy but sanitizes to the
empty string; the secure deploy handler does not fall back to an
auto-generated name — it stores the file under `.html` (empty base name). -/
theorem C6_counterexample :
    sanitizeFilename "/" = ""
    ∧ deploySecure "/srv" "<h1>hi</h1>" (some "/") [1, 2, 3, 4, 5, 6, 7, 8] 7 []
      = (.ok ".html", [("/srv/.html", "<h1>hi</h1>")])
    ∧ (".html" : String) ≠ hexEncode [1, 2, 3, 4, 5, 6, 7, 8] ++ ".html" := by decide

/-- Claim C6 (amended): the sanitizer is total — its output is always a
well-defined string over the safe character class (it never throws); but when
a caller-supplied (non-empty) name sanitizes to the empty string, Deploy does
NOT fall back to an auto-generated name: it appends the extension to the
empty base and stores the file as `.html`. -/
theorem C6_sanitizer_total_empty_collapse :
    (∀ s : String, (sanitizeFilename s).data.all isSafeChar = true)
    ∧ (∀ (root name html : String) (bytes : List Nat) (ts : Nat) (fs : FS),
      goodRoot root
      → ¬ html = "" → ¬ MAX_HTML < html.length
      → ¬ name = "" → sanitizeFilename name = ""
      → fsHas fs (pathJoin root ".html") = false
      → deploySecure root html (some name) bytes ts fs
          = (.ok ".html", fsWrite fs (pathJoin root ".html") html)) :=
  ⟨sanitize_all_safe,
   fun _ _ _ _ _ _ hg hh hlen hn0 hsan hfree =>
     deploySecure_empty_sanitized hg hh hlen hn0 hsan hfree⟩

/-- Claim C6 witness: a concrete run with a name that sanitizes to empty. -/
theorem C6_witness :
    deploySecure "/srv" "<p>x</p>" (some "///") [0, 0, 0, 0, 0, 0, 0, 0] 3 []
      = (.ok ".html", fsWrite [] (pathJoin "/srv" ".html") "<p>x</p>") :=
  C6_sanitizer_total_empty_collapse.2 "/srv" "///" "<p>x</p>" [0, 0, 0, 0, 0, 0, 0, 0] 3 []
    ⟨by decide, by decide⟩ (by decide) (by decide) (by decide) (by decide) (by decide)

/-- Claim C7, counterexample: the simple-api.js delete handler answers 500
(its catch-all), not 404, when the named file does not exist. -/
theorem C7_counterexample :
    deleteSimple "/var/www/website" "nope.html" [] = (.serverError, [])
    ∧ deleteStatus (deleteSimple "/var/www/website" "nope.html" []).1 = 500 := by decide

/-- Claim C7 (amended): deleting a well-formed name with no corresponding
file performs no filesystem mutation in both variants; the secure variant
answers `NotFound` (HTTP 404) as claimed, while the simple-api.js variant
answers 500 from its catch-all handler. -/
theorem C7_delete_missing :
    (∀ (root name : String) (fs : FS),
      goodRoot root
      → ¬ name = "" → sanitizeFilename name = name → hasDotDot name.data = false
      → name ≠ "." → fsHas fs (pathJoin root name) = false
      → deleteSecure root name fs = (.notFound, fs)
        ∧ deleteStatus (deleteSecure root name fs).1 = 404)
    ∧ (∀ (root name : String) (fs : FS),
      fsHas fs (pathJoin root name) = false
      → deleteSimple root name fs = (.serverError, fs)
        ∧ deleteStatus (deleteSimple root name fs).1 = 500) := by
  constructor
  · intro root name fs hg hn0 hsan hdd hdot hhas
    have h := deleteSecure_notFound hg hn0 hsan hdd hdot hhas
    exact ⟨h, by rw [h]; rfl⟩
  · intro root name fs hhas
    have h : deleteSimple root name fs = (.serverError, fs) := by
      simp [deleteSimple, hhas]
    exact ⟨h, by rw [h]; rfl⟩

/-- Claim C7 witness: deleting an absent well-formed name on an empty store. -/
theorem C7_witness :
    deleteSecure "/var/www/website" "absent.html" [] = (.notFound, [])
    ∧ deleteStatus (deleteSecure "/var/www/website" "absent.html" []).1 = 404 :=
  C7_delete_missing.1 "/var/www/website" "absent.html" []
    ⟨by decide, by decide⟩ (by decide) (by decide) (by decide) (by decide) (by decide)

/-- Claim C8, counterexample: the secure variant DOES perform an existence
check for auto-generated names.  With the random bytes all zero and the file
`0000000000000000.html` already present, the returned name is
`0000000000000000-5.html` (timestamp 5): not the generated token followed by
`.html`, and of length 23 where every name of the claimed shape (16 hex
characters plus `.html`) has length 21. -/
theorem C8_counterexample :
    (deploySecure "/var/www/website" "<p>a</p>" none [0, 0, 0, 0, 0, 0, 0, 0] 5
        [("/var/www/website/0000000000000000.html", "x")]).1
      = .ok "0000000000000000-5.html"
    ∧ hexEncode [0, 0, 0, 0, 0, 0, 0, 0] ++ ".html" = "0000000000000000.html"
    ∧ ("0000000000000000-5.html" : String) ≠ "0000000000000000.html"
    ∧ ("0000000000000000-5.html" : String).length ≠ 16 + 5 := by decide

/-- Claim C8 (amended): with no supplied name, the generated token is the
hex encoding of 8 random bytes — 16 hexadecimal characters — with `.html`
appended.  The plain variant (index.ts) performs no existence check: it
returns that name whatever the store contains.  The secure variant
(index-secure.ts) DOES perform an existence check on the auto-generated name:
it returns the token name only when that file is absent, and appends a
timestamp when it is present. -/
theorem C8_auto_names :
    (∀ bytes : List Nat, bytes.length = 8
      → (hexEncode bytes).length = 16 ∧ (hexEncode bytes).data.all isHexChar = true)
    ∧ (∀ (root html : String) (bytes : List Nat) (fs : FS), ¬ html = ""
      → deployInsecure root html none bytes fs
          = (.ok (hexEncode bytes ++ ".html"),
            fsWrite fs (pathJoin root (hexEncode bytes ++ ".html")) html))
    ∧ (∀ (root html : String) (bytes : List Nat) (ts : Nat) (fs : FS),
      goodRoot root → ¬ html = "" → ¬ MAX_HTML < html.length
      → fsHas fs (pathJoin root (hexEncode bytes ++ ".html")) = false
      → deploySecure root html none bytes ts fs
          = (.ok (hexEncode bytes ++ ".html"),
            fsWrite fs (pathJoin root (hexEncode bytes ++ ".html")) html))
    ∧ (∀ (root html : String) (bytes : List Nat) (ts : Nat) (fs : FS),
      goodRoot root → ¬ html = "" → ¬ MAX_HTML < html.length
      → bytes ≠ []
      → fsHas fs (pathJoin root (hexEncode bytes ++ ".html")) = true
      → (deploySecure root html none bytes ts fs).1
          = .ok (hexEncode bytes ++ "-" ++ natToString ts ++ ".html")) := by
  refine ⟨fun bytes hb => ⟨?_, hexEncode_all_hex bytes⟩, ?_, ?_, ?_⟩
  · rw [hexEncode_length, hb]
  · intro root html bytes fs hh
    simp [deployInsecure, hh]
  · intro root html bytes ts fs hg hh hlen hfree
    exact deploySecure_auto_free hg hh hlen hfree
  · intro root html bytes ts fs hg hh hlen hb htaken
    rw [deploySecure_auto_taken hg hh hlen hb htaken]

/-- Claim C8 witness: token shape at a concrete byte vector. -/
theorem C8_witness :
    (hexEncode [1, 2, 3, 4, 5, 6, 7, 8]).length = 16
    ∧ (hexEncode [1, 2, 3, 4, 5, 6, 7, 8]).data.all isHexChar = true :=
  C8_auto_names.1 [1, 2, 3, 4, 5, 6, 7, 8] rfl

/-- Claim C9, counterexample: fetching `http://h.example/page` (final segment
without the `.html` extension) forwards NO candidate name — a random name is
used, not `page`; and for the segment `a.htmlb.html`, `replace` removes the
FIRST occurrence of `.html` rather than the extension, producing
`ab.html.html` instead of `a.htmlb.html`. -/
theorem C9_counterexample :
    (deployFromUrl "/var/www/website" "http://h.example/page" none
        ⟨200, "<x>"⟩ [0, 0, 0, 0, 0, 0, 0, 0] []).1
      = .ok "0000000000000000.html"
    ∧ ("0000000000000000.html" : String) ≠ "page.html"
    ∧ (deployFromUrl "/var/www/website" "http://h.example/a.htmlb.html" none
        ⟨200, "<x>"⟩ [0, 0, 0, 0, 0, 0, 0, 0] []).1
      = .ok "ab.html.html"
    ∧ ("ab.html.html" : String) ≠ "a.htmlb.html" := by decide

/-- Claim C9 (amended): on a non-success upstream status, the remote-fetch
deploy fails with a 400 error carrying the upstream status and writes
nothing.  On success with no supplied name, a candidate name is derived only
when the URL's final path segment ends in `.html`, by removing the first
occurrence of the substring `.html`; otherwise no candidate is forwarded and
a random name is used. -/
theorem C9_remote_fetch :
    (∀ (root url : String) (fname : Option String) (resp : FetchResp)
        (bytes : List Nat) (fs : FS),
      respOk resp = false
      → deployFromUrl root url fname resp bytes fs = (.fetchErr resp.status, fs)
        ∧ deployStatus (deployFromUrl root url fname resp bytes fs).1 = 400)
    ∧ (∀ (root url : String) (resp : FetchResp) (bytes : List Nat) (fs : FS),
      respOk resp = true → ¬ resp.body = ""
      → strEndsWith (basenameStr (urlPathname url)) ".html" = false
      → (deployFromUrl root url none resp bytes fs).1
          = .ok (hexEncode bytes ++ ".html"))
    ∧ (∀ (root url : String) (resp : FetchResp) (bytes : List Nat) (fs : FS),
      respOk resp = true → ¬ resp.body = ""
      → strEndsWith (basenameStr (urlPathname url)) ".html" = true
      → ¬ replaceFirstHtml (basenameStr (urlPathname url)) = ""
      → (deployFromUrl root url none resp bytes fs).1
          = .ok (replaceFirstHtml (basenameStr (urlPathname url)) ++ ".html")) := by
  refine ⟨?_, ?_, ?_⟩
  · intro root url fname resp bytes fs hbad
    have h : deployFromUrl root url fname resp bytes fs = (.fetchErr resp.status, fs) := by
      simp [deployFromUrl, hbad]
    exact ⟨h, by rw [h]; rfl⟩
  · intro root url resp bytes fs hok hbody hext
    simp [deployFromUrl, deployInsecure, hok, hbody, hext]
  · intro root url resp bytes fs hok hbody hext hne
    have hseg : ¬ basenameStr (urlPathname url) = "" := by
      intro h0
      rw [h0] at hext
      exact absurd hext (by decide)
    simp [deployFromUrl, deployInsecure, hok, hbody, hext, hseg, hne]

/-- Claim C9 witness: a failed upstream fetch at a concrete status. -/
theorem C9_witness :
    deployFromUrl "/var/www/website" "http://h.example/p.html" none
        ⟨500, "err"⟩ [0, 0, 0, 0, 0, 0, 0, 0] []
      = (.fetchErr 500, [])
    ∧ deployStatus (deployFromUrl "/var/www/website" "http://h.example/p.html" none
        ⟨500, "err"⟩ [0, 0, 0, 0, 0, 0, 0, 0] []).1 = 400 :=
  C9_remote_fetch.1 "/var/www/website" "http://h.example/p.html" none
    ⟨500, "err"⟩ [0, 0, 0, 0, 0, 0, 0, 0] [] (by decide)

/-- Claim C10: in the secure variant there is a requested name — `a..b` —
for which Deploy succeeds and returns the final name `a..b.html` containing
the `..` sequence, while a Delete of that exact returned name is rejected
with `InvalidName` (HTTP 400) and removes nothing: Deploy can produce names
that the Delete operation's own validity check refuses. -/
theorem C10_deploy_creates_undeletable_name :
    deploySecure "/var/www/website" "<h1>x</h1>" (some "a..b") [0, 0, 0, 0, 0, 0, 0, 0] 0 []
      = (.ok "a..b.html", [("/var/www/website/a..b.html", "<h1>x</h1>")])
    ∧ hasDotDot ("a..b.html" : String).data = true
    ∧ deleteSecure "/var/www/website" "a..b.html"
        [("/var/www/website/a..b.html", "<h1>x</h1>")]
      = (.invalidName, [("/var/www/website/a..b.html", "<h1>x</h1>")])
    ∧ deleteStatus .invalidName = 400 := by decide

end DeployWebsite
